import Mathlib

/-!
Verification of the LRP propagation-rule module (`captum/attr/_utils/lrp_rules.py`)
and the feature-visualization typing module (`captum/optim/_utils/typing.py`).

Tensors are modelled elementwise as lists of rationals (the `.data` of a torch
tensor); the rules' mutable attributes become explicit state records, and each
backward/forward hook closure becomes a function of its captured tensor, the
rule state and its gradient argument, returning the updated state together with
the hook's return value.
-/

namespace Captum

/-- A tensor is modelled elementwise as a list of rationals (its `.data`). -/
abbrev Tensor := List ℚ

/-- `torch.sign`, elementwise on one entry: 1 for positive, -1 for negative,
0 for zero. -/
def torchSign (x : ℚ) : ℚ := if 0 < x then 1 else if x < 0 then -1 else 0

/-- `sign = torch.sign(outputs); sign[sign == 0] = 1` from
`PropagationRule._create_backward_hook_output`. -/
def signZeroReplaced (t : Tensor) : Tensor :=
  (t.map torchSign).map (fun s => if s = 0 then 1 else s)

/-- Elementwise tensor addition. -/
def tensorAdd (a b : Tensor) : Tensor := List.zipWith (· + ·) a b

/-- Elementwise tensor multiplication. -/
def tensorMul (a b : Tensor) : Tensor := List.zipWith (· * ·) a b

/-- Elementwise tensor division. -/
def tensorDiv (a b : Tensor) : Tensor := List.zipWith (· / ·) a b

/-- `tensor * c` (scalar on the right, as in `sign * self.STABILITY_FACTOR`). -/
def scalarMulRight (t : Tensor) (c : ℚ) : Tensor := t.map (fun x => x * c)

/-- `c * tensor` (scalar on the left, as in `self.gamma * ...clamp(min=0)`). -/
def scalarMulLeft (c : ℚ) (t : Tensor) : Tensor := t.map (fun x => c * x)

/-- `tensor.clamp(min=c)`. -/
def clampMin (t : Tensor) (c : ℚ) : Tensor := t.map (fun x => max x c)

/-- `torch.zeros_like`. -/
def zeros_like (t : Tensor) : Tensor := t.map (fun _ => 0)

/-- `self.relevance_input`: a list of tensors right after `forward_hook`
initialises it, a single tensor once the single-input branch of the input
backward hook has assigned to it. -/
inductive RelevanceInput where
  | list (ts : List Tensor)
  | tensor (t : Tensor)
  deriving DecidableEq

/-- The mutable attributes of a `PropagationRule` instance.  The class
attribute `STABILITY_FACTOR = 1e-9` is the default stability factor. -/
structure RuleState where
  stabilityFactor : ℚ := 1 / 1000000000
  hasSingleInput : Bool := true
  relevanceInput : RelevanceInput := .list []
  relevanceOutput : Tensor := []
  deriving DecidableEq

/-- The denominator `outputs + sign * self.STABILITY_FACTOR` computed in
`PropagationRule._create_backward_hook_output`. -/
def outputDenominator (stabilityFactor : ℚ) (outputs : Tensor) : Tensor :=
  tensorAdd outputs (scalarMulRight (signZeroReplaced outputs) stabilityFactor)

/-- The closure returned by `PropagationRule._create_backward_hook_output`,
with the captured `outputs.data` made explicit: computes
`grad / (outputs + sign * STABILITY_FACTOR)`, stores `grad.data` into
`self.relevance_output` and returns the quotient. -/
def backward_hook_output (captured : Tensor) (st : RuleState) (grad : Tensor) :
    RuleState × Tensor :=
  let relevance := tensorDiv grad (outputDenominator st.stabilityFactor captured)
  ({ st with relevanceOutput := grad }, relevance)

/-- The closure returned by `PropagationRule._create_backward_hook_input`,
with the captured `input.data` made explicit: computes `grad * inputs`,
stores it into `self.relevance_input` (direct assignment in the single-input
case, `append` otherwise) and returns it.  Appending to a non-list
`relevance_input` would raise in Python, hence the `Option`. -/
def backward_hook_input (captured : Tensor) (st : RuleState) (grad : Tensor) :
    Option (RuleState × Tensor) :=
  let relevance := tensorMul grad captured
  if st.hasSingleInput then
    some ({ st with relevanceInput := .tensor relevance }, relevance)
  else
    match st.relevanceInput with
    | .list ts => some ({ st with relevanceInput := .list (ts ++ [relevance]) }, relevance)
    | .tensor _ => none

/-- The closure returned by `IdentityRule._create_backward_hook_input`:
ignores its gradient argument and returns `self.relevance_output`. -/
def identity_backward_hook_input (captured : Tensor) (st : RuleState)
    (grad : Tensor) : RuleState × Tensor :=
  (st, st.relevanceOutput)

/-- `EpsilonRule.__init__(epsilon=1e-9)`: stores `epsilon` as the instance's
`STABILITY_FACTOR`, with no validation. -/
def EpsilonRule.init (epsilon : ℚ := 1 / 1000000000) : RuleState :=
  { stabilityFactor := epsilon }

/-- A module, keeping only the attributes this code touches.  `weight = none`
models a module without a `weight` attribute; `bias = none` a module without a
`bias` attribute, `bias = some none` one whose `bias` is `None`. -/
structure Module where
  weight : Option Tensor := none
  bias : Option (Option Tensor) := none
  activations : List Tensor := []
  deriving DecidableEq

/-- `GammaRule._manipulate_weights`: replaces the weight with
`weight + gamma * weight.clamp(min=0)` when the module has a weight, then
zeroes the bias when `set_bias_to_zero` holds and the module has a non-`None`
bias.  `ins` and `outs` mirror the unused `inputs`/`outputs` parameters. -/
def GammaRule.manipulate_weights (gamma : ℚ) (set_bias_to_zero : Bool)
    (m : Module) (ins outs : List Tensor) : Module :=
  let m1 :=
    match m.weight with
    | some w => { m with weight := some (tensorAdd w (scalarMulLeft gamma (clampMin w 0))) }
    | none => m
  if set_bias_to_zero then
    match m1.bias with
    | some (some b) => { m1 with bias := some (some (zeros_like b)) }
    | _ => m1
  else m1

/-- `ZPlusRule._manipulate_weights`: replaces the weight with
`weight.clamp(min=0)` when the module has a weight, then zeroes the bias when
`set_bias_to_zero` holds and the module has a non-`None` bias. -/
def ZPlusRule.manipulate_weights (set_bias_to_zero : Bool)
    (m : Module) (ins outs : List Tensor) : Module :=
  let m1 :=
    match m.weight with
    | some w => { m with weight := some (clampMin w 0) }
    | none => m
  if set_bias_to_zero then
    match m1.bias with
    | some (some b) => { m1 with bias := some (some (zeros_like b)) }
    | _ => m1
  else m1

/-- `EpsilonRule._manipulate_weights`: `pass`. -/
def EpsilonRule.manipulate_weights (m : Module) (ins outs : List Tensor) :
    Module :=
  m

/-- `PropagationRule.forward_hook_weights`: saves every input's data into
`module.activations` (in input order) and only then calls
`_manipulate_weights`. -/
def forward_hook_weights (manip : Module → List Tensor → List Tensor → Module)
    (m : Module) (ins outs : List Tensor) : Module :=
  manip { m with activations := ins } ins outs

/-- `PropagationRule.forward_pre_hook_activations`: sets each input's data to
the corresponding saved activation (`zip` stops at the shorter sequence, later
inputs keep their data) and returns the inputs. -/
def forward_pre_hook_activations (m : Module) (ins : List Tensor) :
    List Tensor :=
  List.zipWith (fun _ a => a) ins m.activations ++ ins.drop m.activations.length

/-- A tensor as seen by `PropagationRule.forward_hook`, carrying the
attributes the hook reads or writes: its data, the `hook_registered` marker
(`false` models the attribute being absent; the code only ever sets it to
`True`) and the number of backward hooks registered on the tensor. -/
structure HookTensor where
  data : Tensor := []
  hookRegistered : Bool := false
  numHooks : ℕ := 0
  deriving DecidableEq

/-- The loop of `PropagationRule.forward_hook` over the inputs: registers an
input backward hook and sets the marker on each input that does not already
carry `hook_registered`. -/
def registerInputHooks (ins : List HookTensor) : List HookTensor :=
  ins.map fun t =>
    if t.hookRegistered then t
    else { t with hookRegistered := true, numHooks := t.numHooks + 1 }

/-- Everything `PropagationRule.forward_hook` produces: the updated rule
state, the updated input tensors, the updated output tensor and the returned
tensor. -/
structure ForwardHookResult where
  state : RuleState
  ins : List HookTensor
  out : HookTensor
  ret : HookTensor
  deriving DecidableEq

/-- `PropagationRule.forward_hook`: records whether there is a single input,
resets `relevance_input` to `[]`, hooks each unmarked input, registers a
fresh output hook, and returns `outputs.clone()` (same data, fresh tensor
with no hooks and no marker). -/
def forward_hook (st : RuleState) (ins : List HookTensor) (out : HookTensor) :
    ForwardHookResult where
  state :=
    { st with
        hasSingleInput := ins.length == 1
        relevanceInput := .list [] }
  ins := registerInputHooks ins
  out := { out with numHooks := out.numHooks + 1 }
  ret := { data := out.data, hookRegistered := false, numHooks := 0 }

/-- `ParametersForOptimizers = Iterable[Union[Tensor, Dict[str, Tensor]]]`
from `captum/optim/_utils/typing.py`. -/
abbrev ParametersForOptimizers := List (Tensor ⊕ List (String × Tensor))

/-- An `Objective`: `Parameterized` (has `parameters`) and `HasLoss` are
Protocol classes with no runtime behaviour; `cleanup` is the only concrete
method. -/
structure Objective where
  parameters : ParametersForOptimizers

/-- `Objective.cleanup(self): pass` — returns `None` (`Unit`) and leaves the
instance unchanged. -/
def Objective.cleanup (o : Objective) : Objective × Unit := (o, ())

/-- Pointwise form of the zero-replaced sign. -/
theorem signZeroReplaced_eq_map (t : Tensor) :
    signZeroReplaced t
      = t.map (fun o => if 0 < o then 1 else if o < 0 then -1 else 1) := by
  simp only [signZeroReplaced, List.map_map]
  refine List.map_congr_left (fun o _ => ?_)
  simp only [Function.comp_apply]
  rcases lt_trichotomy o 0 with h | h | h
  · norm_num [torchSign, h, asymm h]
  · simp [torchSign, h]
  · norm_num [torchSign, h, asymm h]

/-- Pointwise form of the output-hook denominator. -/
theorem outputDenominator_eq_map (eps : ℚ) (t : Tensor) :
    outputDenominator eps t
      = t.map (fun o => o + (if 0 < o then 1 else if o < 0 then -1 else 1) * eps) := by
  simp only [outputDenominator, signZeroReplaced_eq_map, scalarMulRight, tensorAdd,
    List.map_map]
  induction t with
  | nil => rfl
  | cons o t ih => simpa using ih

/-- One entry of the denominator is nonzero when the stability factor is
positive. -/
theorem denominator_entry_ne_zero (eps o : ℚ) (heps : 0 < eps) :
    o + (if 0 < o then 1 else if o < 0 then -1 else 1) * eps ≠ 0 := by
  split_ifs with h1 h2
  · nlinarith
  · nlinarith
  · have ho : o = 0 := le_antisymm (not_lt.mp h1) (not_lt.mp h2)
    simp [ho]
    exact ne_of_gt heps

/-- C1: for every rule state whose stability factor is strictly positive and
every output tensor, every entry of the denominator
`outputs + sign * STABILITY_FACTOR` computed by the output backward hook is
nonzero, and the hook's returned relevance is exactly the elementwise quotient
of the gradient by that denominator, so no division by zero occurs. -/
theorem output_denominator_never_zero (st : RuleState) (captured grad : Tensor)
    (h : 0 < st.stabilityFactor) :
    (∀ d ∈ outputDenominator st.stabilityFactor captured, d ≠ 0) ∧
    (backward_hook_output captured st grad).2
      = tensorDiv grad (outputDenominator st.stabilityFactor captured) := by
  constructor
  · intro d hd
    rw [outputDenominator_eq_map] at hd
    obtain ⟨o, _, rfl⟩ := List.mem_map.mp hd
    exact denominator_entry_ne_zero _ o h
  · rfl

/-- Witness for C1 at a concrete positive stability factor and an output
tensor containing a zero, a positive and a negative entry: the zero entry
yields denominator `1e-9`, which is nonzero. -/
theorem output_denominator_never_zero_witness : (1 / 1000000000 : ℚ) ≠ 0 :=
  (output_denominator_never_zero
      { stabilityFactor := 1 / 1000000000 } [0, 2, -3] [1, 1, 1] (by norm_num)).1
    (1 / 1000000000) (by norm_num [outputDenominator_eq_map])

/-- Fusing an elementwise add with a mapped second argument. -/
theorem zipWith_add_map_self (f : ℚ → ℚ) (w : Tensor) :
    List.zipWith (· + ·) w (w.map f) = w.map (fun x => x + f x) := by
  induction w with
  | nil => rfl
  | cons x w ih => simp [ih]

/-- The gamma-manipulated weight, elementwise. -/
theorem gamma_weight_eq_map (g : ℚ) (w : Tensor) :
    tensorAdd w (scalarMulLeft g (clampMin w 0))
      = w.map (fun x => x + g * max x 0) := by
  rw [tensorAdd, scalarMulLeft, clampMin, List.map_map]
  exact zipWith_add_map_self _ w

/-- `getD` through a `map`, inside the bounds. -/
theorem getD_map_of_lt (f : ℚ → ℚ) (w : Tensor) (i : ℕ) (hi : i < w.length) :
    (w.map f).getD i 0 = f (w.getD i 0) := by
  rw [List.getD_eq_getElem _ _ (by simpa using hi), List.getD_eq_getElem _ _ hi]
  simp

/-- C2: for every module with a weight, `GammaRule._manipulate_weights`
replaces the weight with `weight + gamma * clamp(weight, min=0)`: strictly
positive entries are multiplied by `1 + gamma`, non-positive entries are left
unchanged; the bias becomes a zero tensor of the bias's shape exactly when
`set_bias_to_zero` holds and the module has a non-`None` bias, and is
untouched otherwise. -/
theorem gamma_manipulate_weights_spec (gamma : ℚ) (stz : Bool) (m : Module)
    (w : Tensor) (ins outs : List Tensor) (hw : m.weight = some w) :
    ((GammaRule.manipulate_weights gamma stz m ins outs).weight
        = some (tensorAdd w (scalarMulLeft gamma (clampMin w 0)))) ∧
    (tensorAdd w (scalarMulLeft gamma (clampMin w 0))).length = w.length ∧
    (∀ i, i < w.length →
      (0 < w.getD i 0 →
        (tensorAdd w (scalarMulLeft gamma (clampMin w 0))).getD i 0
          = (1 + gamma) * w.getD i 0) ∧
      (w.getD i 0 ≤ 0 →
        (tensorAdd w (scalarMulLeft gamma (clampMin w 0))).getD i 0
          = w.getD i 0)) ∧
    (stz = true → ∀ b, m.bias = some (some b) →
      (GammaRule.manipulate_weights gamma stz m ins outs).bias
        = some (some (zeros_like b))) ∧
    ((stz = false ∨ m.bias = none ∨ m.bias = some none) →
      (GammaRule.manipulate_weights gamma stz m ins outs).bias = m.bias) := by
  obtain ⟨mw, mb, ma⟩ := m
  simp only [] at hw
  subst hw
  refine ⟨?_, ?_, ?_, ?_, ?_⟩
  · cases stz <;> rcases mb with _ | _ | b <;>
      simp [GammaRule.manipulate_weights]
  · rw [gamma_weight_eq_map]; simp
  · intro i hi
    rw [gamma_weight_eq_map]
    constructor
    · intro hpos
      rw [getD_map_of_lt _ _ _ hi, max_eq_left hpos.le]; ring
    · intro hneg
      rw [getD_map_of_lt _ _ _ hi, max_eq_right hneg]; ring
  · rintro rfl b rfl
    simp [GammaRule.manipulate_weights]
  · rintro (rfl | h | h) <;>
      simp_all [GammaRule.manipulate_weights]

/-- Witness for C2: gamma = 1/4 on the weight `[2, -1]`. -/
theorem gamma_manipulate_weights_spec_witness :
    (GammaRule.manipulate_weights (1 / 4) false
        ({ weight := some [2, -1] } : Module) [] []).weight
      = some (tensorAdd [2, -1] (scalarMulLeft (1 / 4) (clampMin [2, -1] 0))) :=
  (gamma_manipulate_weights_spec (1 / 4) false
    { weight := some [2, -1] } [2, -1] [] [] rfl).1

/-- C3: for every module with a weight, `ZPlusRule._manipulate_weights`
replaces the weight with `clamp(weight, min=0)`: every resulting entry is
nonnegative, negative entries become exactly 0 and nonnegative entries are
unchanged; the bias becomes a zero tensor of the bias's shape exactly when
`set_bias_to_zero` holds and the module has a non-`None` bias, and is
untouched otherwise. -/
theorem zplus_manipulate_weights_spec (stz : Bool) (m : Module)
    (w : Tensor) (ins outs : List Tensor) (hw : m.weight = some w) :
    ((ZPlusRule.manipulate_weights stz m ins outs).weight
        = some (clampMin w 0)) ∧
    (clampMin w 0).length = w.length ∧
    (∀ i, i < w.length →
      0 ≤ (clampMin w 0).getD i 0 ∧
      (w.getD i 0 < 0 → (clampMin w 0).getD i 0 = 0) ∧
      (0 ≤ w.getD i 0 → (clampMin w 0).getD i 0 = w.getD i 0)) ∧
    (stz = true → ∀ b, m.bias = some (some b) →
      (ZPlusRule.manipulate_weights stz m ins outs).bias
        = some (some (zeros_like b))) ∧
    ((stz = false ∨ m.bias = none ∨ m.bias = some none) →
      (ZPlusRule.manipulate_weights stz m ins outs).bias = m.bias) := by
  obtain ⟨mw, mb, ma⟩ := m
  simp only [] at hw
  subst hw
  refine ⟨?_, ?_, ?_, ?_, ?_⟩
  · cases stz <;> rcases mb with _ | _ | b <;>
      simp [ZPlusRule.manipulate_weights]
  · simp [clampMin]
  · intro i hi
    rw [clampMin]
    refine ⟨?_, ?_, ?_⟩
    · rw [getD_map_of_lt _ _ _ hi]; exact le_max_right _ _
    · intro hneg
      rw [getD_map_of_lt _ _ _ hi, max_eq_right hneg.le]
    · intro hpos
      rw [getD_map_of_lt _ _ _ hi, max_eq_left hpos]
  · rintro rfl b rfl
    simp [ZPlusRule.manipulate_weights]
  · rintro (rfl | h | h) <;>
      simp_all [ZPlusRule.manipulate_weights]

/-- Witness for C3: the weight `[2, -1]` is clamped. -/
theorem zplus_manipulate_weights_spec_witness :
    (ZPlusRule.manipulate_weights false
        ({ weight := some [2, -1] } : Module) [] []).weight
      = some (clampMin [2, -1] 0) :=
  (zplus_manipulate_weights_spec false
    { weight := some [2, -1] } [2, -1] [] [] rfl).1

/-- C9: `EpsilonRule._manipulate_weights` is a no-op on the module state,
whereas `GammaRule` and `ZPlusRule` do rewrite the weight of some module. -/
theorem epsilon_manipulate_weights_noop (m : Module) (ins outs : List Tensor) :
    EpsilonRule.manipulate_weights m ins outs = m ∧
    (∃ m2 : Module, ∃ g : ℚ,
      GammaRule.manipulate_weights g false m2 [] [] ≠ m2) ∧
    (∃ m2 : Module, ZPlusRule.manipulate_weights false m2 [] [] ≠ m2) := by
  refine ⟨rfl, ⟨{ weight := some [1] }, 1, ?_⟩, ⟨{ weight := some [-1] }, ?_⟩⟩
  · intro hcon
    have := congrArg Module.weight hcon
    simp [GammaRule.manipulate_weights, tensorAdd, scalarMulLeft, clampMin] at this
  · intro hcon
    have := congrArg Module.weight hcon
    simp [ZPlusRule.manipulate_weights, clampMin] at this

/-- `GammaRule._manipulate_weights` never touches `module.activations`. -/
theorem gamma_manipulate_weights_activations (g : ℚ) (stz : Bool) (m : Module)
    (ins outs : List Tensor) :
    (GammaRule.manipulate_weights g stz m ins outs).activations
      = m.activations := by
  obtain ⟨mw, mb, ma⟩ := m
  cases stz <;> rcases mw with _ | w <;> rcases mb with _ | _ | b <;>
    simp [GammaRule.manipulate_weights]

/-- `ZPlusRule._manipulate_weights` never touches `module.activations`. -/
theorem zplus_manipulate_weights_activations (stz : Bool) (m : Module)
    (ins outs : List Tensor) :
    (ZPlusRule.manipulate_weights stz m ins outs).activations
      = m.activations := by
  obtain ⟨mw, mb, ma⟩ := m
  cases stz <;> rcases mw with _ | w <;> rcases mb with _ | _ | b <;>
    simp [ZPlusRule.manipulate_weights]

/-- `zip` of a list with itself in the second component. -/
theorem zipWith_snd_self (l : List Tensor) :
    List.zipWith (fun _ a => a) l l = l := by
  induction l with
  | nil => rfl
  | cons x l ih => simp [ih]

/-- A module whose activations equal the inputs restores those inputs. -/
theorem pre_hook_restores (m2 : Module) (ins : List Tensor)
    (h : m2.activations = ins) :
    forward_pre_hook_activations m2 ins = ins := by
  rw [forward_pre_hook_activations, h, zipWith_snd_self, List.drop_length,
    List.append_nil]

/-- C5: `forward_hook_weights` saves the inputs' data into
`module.activations` before manipulating the weights (for each of the three
concrete rules), and a subsequent `forward_pre_hook_activations` on that
module returns exactly the saved pre-manipulation inputs. -/
theorem activations_round_trip (g : ℚ) (stz1 stz2 : Bool) (m : Module)
    (ins outs : List Tensor) :
    ((forward_hook_weights (GammaRule.manipulate_weights g stz1)
        m ins outs).activations = ins ∧
      forward_pre_hook_activations
        (forward_hook_weights (GammaRule.manipulate_weights g stz1) m ins outs)
        ins = ins) ∧
    ((forward_hook_weights (ZPlusRule.manipulate_weights stz2)
        m ins outs).activations = ins ∧
      forward_pre_hook_activations
        (forward_hook_weights (ZPlusRule.manipulate_weights stz2) m ins outs)
        ins = ins) ∧
    ((forward_hook_weights EpsilonRule.manipulate_weights
        m ins outs).activations = ins ∧
      forward_pre_hook_activations
        (forward_hook_weights EpsilonRule.manipulate_weights m ins outs)
        ins = ins) := by
  have h1 : (forward_hook_weights (GammaRule.manipulate_weights g stz1)
      m ins outs).activations = ins := by
    rw [forward_hook_weights, gamma_manipulate_weights_activations]
  have h2 : (forward_hook_weights (ZPlusRule.manipulate_weights stz2)
      m ins outs).activations = ins := by
    rw [forward_hook_weights, zplus_manipulate_weights_activations]
  have h3 : (forward_hook_weights EpsilonRule.manipulate_weights
      m ins outs).activations = ins := rfl
  exact ⟨⟨h1, pre_hook_restores _ _ h1⟩, ⟨h2, pre_hook_restores _ _ h2⟩,
    ⟨h3, pre_hook_restores _ _ h3⟩⟩

/-- C4: the input backward hook returns the elementwise product
`grad * inputs` and stores that product into `relevance_input`: by direct
assignment when the rule saw a single input, by appending to the
`relevance_input` list otherwise. -/
theorem backward_hook_input_spec (captured grad : Tensor) (st : RuleState) :
    (st.hasSingleInput = true →
      backward_hook_input captured st grad
        = some ({ st with relevanceInput := .tensor (tensorMul grad captured) },
            tensorMul grad captured)) ∧
    (∀ ts, st.hasSingleInput = false → st.relevanceInput = .list ts →
      backward_hook_input captured st grad
        = some ({ st with relevanceInput := .list (ts ++ [tensorMul grad captured]) },
            tensorMul grad captured)) := by
  constructor
  · intro h
    simp [backward_hook_input, h]
  · intro ts h hts
    simp [backward_hook_input, h, hts]

/-- Witness for C4: a single-input rule state with captured input `[2]` and
gradient `[3]` stores and returns the product `[6]`. -/
theorem backward_hook_input_spec_witness :
    backward_hook_input [2] { hasSingleInput := true } [3]
      = some ({ hasSingleInput := true,
                relevanceInput := .tensor (tensorMul [3] [2]) },
          tensorMul [3] [2]) :=
  (backward_hook_input_spec [2] [3] { hasSingleInput := true }).1 rfl

/-- C6: after the inherited output backward hook has run with gradient `g`
(storing `g` into `relevance_output`), the `IdentityRule` input backward hook
returns exactly `g` whatever its own gradient argument is: the incoming
gradient and the stabilised quotient are ignored. -/
theorem identity_rule_passes_relevance (capturedOut capturedIn g grad : Tensor)
    (st : RuleState) :
    identity_backward_hook_input capturedIn (backward_hook_output capturedOut st g).1 grad
      = ((backward_hook_output capturedOut st g).1, g) := by
  simp [identity_backward_hook_input, backward_hook_output]

/-- C8: `EpsilonRule.__init__` stores any epsilon unvalidated as the
stability factor, and with epsilon = 0 every output tensor containing a zero
entry yields a denominator with an exactly-zero entry: the no-zero-division
guarantee needs the unenforced precondition epsilon > 0. -/
theorem epsilon_init_unvalidated (eps : ℚ) (t : Tensor) (h : (0 : ℚ) ∈ t) :
    (EpsilonRule.init eps).stabilityFactor = eps ∧
    (0 : ℚ) ∈ outputDenominator (EpsilonRule.init 0).stabilityFactor t := by
  refine ⟨rfl, ?_⟩
  rw [show (EpsilonRule.init 0).stabilityFactor = 0 from rfl,
    outputDenominator_eq_map]
  exact List.mem_map.mpr ⟨0, h, by norm_num⟩

/-- Witness for C8: epsilon = 0 on the output tensor `[0]`. -/
theorem epsilon_init_unvalidated_witness :
    (EpsilonRule.init 0).stabilityFactor = 0 ∧
    (0 : ℚ) ∈ outputDenominator (EpsilonRule.init 0).stabilityFactor [0] :=
  epsilon_init_unvalidated 0 [0] (by norm_num)

/-- Hooking the inputs twice registers nothing new. -/
theorem registerInputHooks_idem (ins : List HookTensor) :
    registerInputHooks (registerInputHooks ins) = registerInputHooks ins := by
  simp only [registerInputHooks, List.map_map]
  refine List.map_congr_left (fun t _ => ?_)
  by_cases h : t.hookRegistered <;> simp [Function.comp_apply, h]

/-- Any positive number of hook-registration passes equals one pass. -/
theorem registerInputHooks_iterate (ins : List HookTensor) (n : ℕ) :
    registerInputHooks^[n + 1] ins = registerInputHooks ins := by
  induction n with
  | zero => rfl
  | succ k ih =>
    rw [Function.iterate_succ_apply', ih, registerInputHooks_idem]

/-- C7: `forward_hook` registers an input hook (and sets the marker) exactly
on the inputs that do not already carry `hook_registered`; every input is
marked afterwards; a second `forward_hook` call — and any number of repeated
registration passes — changes no input further, so each input tensor gets at
most one input hook; a fresh output hook is registered on every call; and the
hook returns a clone of the outputs tensor (same data, no hooks, no
marker). -/
theorem forward_hook_spec (st st2 : RuleState) (ins : List HookTensor)
    (out out2 : HookTensor) (n : ℕ) :
    ((forward_hook st ins out).ins
        = ins.map (fun t => if t.hookRegistered then t
            else { t with hookRegistered := true, numHooks := t.numHooks + 1 })) ∧
    (∀ t ∈ (forward_hook st ins out).ins, t.hookRegistered = true) ∧
    ((forward_hook st2 (forward_hook st ins out).ins out2).ins
        = (forward_hook st ins out).ins) ∧
    (registerInputHooks^[n + 1] ins = registerInputHooks ins) ∧
    ((forward_hook st ins out).out = { out with numHooks := out.numHooks + 1 }) ∧
    ((forward_hook st ins out).ret
        = { data := out.data, hookRegistered := false, numHooks := 0 }) := by
  refine ⟨rfl, ?_, registerInputHooks_idem ins, registerInputHooks_iterate ins n,
    rfl, rfl⟩
  intro t ht
  simp only [forward_hook, registerInputHooks, List.mem_map] at ht
  obtain ⟨s, _, rfl⟩ := ht
  by_cases h : s.hookRegistered <;> simp [h]

/-- C10: `Objective.cleanup` is a no-op: it returns `None` and leaves the
instance — in particular its `parameters` — unchanged. -/
theorem objective_cleanup_noop (o : Objective) :
    Objective.cleanup o = (o, ()) ∧
    (Objective.cleanup o).1.parameters = o.parameters :=
  ⟨rfl, rfl⟩

end Captum
